import Mathlib

/-!
Verification of the additive secret-sharing scheme built on an LDPC erasure
code (sequential implementation in `src/aos`, parallel implementation in
`src/aos_parallel`, shared orchestration in `src/aos_core`, LDPC adapter in
`src/code/ldpc_impl.rs`).

Shallow embedding conventions:
- The prime field `F` (ark-ff `PrimeField` with modulus `p`) is `ZMod p`
  with `[Fact p.Prime]`; `F::MODULUS_BIT_SIZE` is `bitLen p`.
- `GF2` is `Bool` (`GF2::one()` is `true`).
- `ndarray::Array2<GF2>` matrices are `List (List Bool)`, a list of rows.
- The external LDPC library (`ldpc_toolbox`) is abstracted as function
  fields of the `LdpcCode` structure: `encoder` for `Encoder::encode` and
  `decoder` for the belief-propagation decoder built by
  `arithmetic.build_decoder(..)`, returning `Except` (Rust `Result`:
  `Err` = failure to converge, both carrying a `DecoderOutput`).
- `f64` log-likelihood ratios are modelled as `ℚ`: the repository only
  builds the literals `0.0` and `±llr_value` and never performs floating
  point arithmetic on them, so the embedding is exact.
- Rust panics (failed `assert!`, out-of-bounds indexing, mismatched
  `ndarray` `assign`, `expect`/`unwrap` on `None`) are modelled by
  returning `none`; randomness (`thread_rng`) is pinned by passing the
  sampled values (the random vector `r_vec`, the coefficient draw stream
  `g`) as explicit arguments.
- Timing metrics (`PhaseMetrics`, durations, progress bars) carry no
  program-visible data and are dropped; `DecodingStats` is kept in full.
-/

/-- Fuel-driven helper for `bitLen`; the fuel bounds the recursion
depth. -/
def bitLenAux : ℕ → ℕ → ℕ
  | 0, _ => 0
  | fuel + 1, n => if n = 0 then 0 else bitLenAux fuel (n / 2) + 1

/-- The binary bit length of a natural number (`Nat.size`, written with
explicit fuel so that it evaluates by kernel reduction).  Applied to the
field modulus `p` it models ark-ff's `F::MODULUS_BIT_SIZE`; applied to a
value it is the natural length of the value's little-endian binary
expansion. -/
def bitLen (n : ℕ) : ℕ := bitLenAux n n

/-- Models `ldpc_toolbox::decoder::DecoderOutput`: the belief-propagation
decoder's codeword (a `Vec<u8>` of 0/1 bits) and iteration count. -/
structure DecoderOutput where
  codeword : List ℕ
  iterations : ℕ
deriving DecidableEq, Repr, Inhabited

/-- Models `DecodeResult` from `src/code/mod.rs`. -/
structure DecodeResult where
  codeword : List ℕ
  iterations : ℕ
  success : Bool
deriving DecidableEq, Repr, Inhabited

/-- Models `DecodeResult::from_decoder_output` from `src/code/mod.rs`. -/
def DecodeResult.from_decoder_output (output : DecoderOutput) (success : Bool) : DecodeResult :=
  { codeword := output.codeword, iterations := output.iterations, success := success }

/-- Models `LdpcCode` from `src/code/ldpc_impl.rs`.  The external library
objects (`AR4JACode`, `Encoder`, the decoder built from the `arithmetic`
choice) are abstracted as the `encoder` and `decoder` function fields;
`input_length`/`output_length` are the values the constructor derives from
the rate/info-size family. -/
structure LdpcCode where
  decoder : List ℚ → ℕ → Except DecoderOutput DecoderOutput
  encoder : List Bool → List Bool
  max_iterations : ℕ
  llr_value : ℚ
  input_length : ℕ
  output_length : ℕ

/-- Models the LLR construction inside `LdpcCode::decode`
(src/code/ldpc_impl.rs lines 64-76): erased positions (mask `false`) get
LLR `0.0`; present positions get `-llr_value` when the bit is one and
`+llr_value` when it is zero. -/
def llrMessage (c : LdpcCode) (input present : List Bool) : List ℚ :=
  (input.zip present).map (fun ep =>
    if !ep.2 then 0
    else if ep.1 then -c.llr_value
    else c.llr_value)

/-- Models `LdpcCode::decode` (src/code/ldpc_impl.rs lines 59-83).  The
`assert_eq!` on the lengths of `input` and `present_positions` is the
`none` case; otherwise the LLR message is handed to the external decoder
and its `Ok`/`Err` outcome becomes the `success` flag. -/
def LdpcCode.decode (c : LdpcCode) (input present_positions : List Bool) :
    Option DecodeResult :=
  if input.length = present_positions.length then
    match c.decoder (llrMessage c input present_positions) c.max_iterations with
    | Except.ok output => some (DecodeResult.from_decoder_output output true)
    | Except.error output => some (DecodeResult.from_decoder_output output false)
  else none

/-- Models `DecodingStats` from `src/types.rs`; `avg_iterations` (`f64`)
is modelled as `ℚ` (an exact division). -/
structure DecodingStats where
  total_rows : ℕ
  successful_rows : ℕ
  failed_rows : ℕ
  total_iterations : ℕ
  avg_iterations : ℚ
  max_iterations_hit : ℕ
deriving DecidableEq, Repr

/-- Models `DecodingStats::new` from `src/types.rs`. -/
def DecodingStats.new (total_rows successful_rows failed_rows total_iterations
    max_iterations_hit : ℕ) : DecodingStats :=
  { total_rows := total_rows
    successful_rows := successful_rows
    failed_rows := failed_rows
    total_iterations := total_iterations
    avg_iterations := if successful_rows > 0 then
        (total_iterations : ℚ) / (successful_rows : ℚ) else 0
    max_iterations_hit := max_iterations_hit }

/-- Models `Share` from `src/types.rs`: one codeword column `y` and its
index `i`. -/
structure Share where
  y : List Bool
  i : ℕ
deriving DecidableEq, Repr, Inhabited

/-- Models `CodeParams` from `src/types.rs`. -/
structure CodeParams where
  output_length : ℕ
  input_length : ℕ
  code_impl : LdpcCode

/-- Models `SecretParams` from `src/types.rs`, specialised to the field
`ZMod p`. -/
structure SecretParams (p : ℕ) where
  code : CodeParams
  a : List (ZMod p)

/-- Models `Shares` from `src/types.rs` (the timing-only `metrics` field
is dropped). -/
structure Shares (p : ℕ) where
  shares : List Share
  z0 : ZMod p

/-- Models `dot_product` from `src/aos/utils.rs`: the left-to-right fold
`a.iter().zip(b).fold(F::zero(), |acc, (x, y)| acc + (*x * *y))`. -/
def dot_product {F : Type} [Field F] (a b : List F) : F :=
  (a.zip b).foldl (fun acc xy => acc + xy.1 * xy.2) 0

/-- Models rayon's `par_chunks(n)`: the list split into consecutive chunks
of size `n` (the last chunk possibly shorter); no chunks for the empty
list. -/
def chunked {α : Type} (n : ℕ) (l : List α) : List (List α) :=
  if _h : n = 0 ∨ l.isEmpty then [] else l.take n :: chunked n (l.drop n)
termination_by l.length
decreasing_by
  simp only [not_or, List.isEmpty_iff] at _h
  have hl : 0 < l.length := List.length_pos.mpr _h.2
  simp only [List.length_drop]
  omega

/-- Models `dot_product` from `src/aos_parallel/utils.rs`: vectors shorter
than the chunk size 1024 use the sequential fold; otherwise chunk-local
left-to-right sums are combined by a final left-to-right sum over the
collected chunk results. -/
def dot_product_par {F : Type} [Field F] (a b : List F) : F :=
  if a.length < 1024 then
    (a.zip b).foldl (fun acc xy => acc + xy.1 * xy.2) 0
  else
    (((chunked 1024 a).zip (chunked 1024 b)).map (fun pc =>
        (pc.1.zip pc.2).foldl (fun acc xy => acc + xy.1 * xy.2) 0)).foldl
      (fun acc x => acc + x) 0

/-- Models `into_bigint().to_bits_le()` (ark-ff) applied to a field
element: the little-endian binary expansion of its canonical
representative `x.val`, of its natural bit length `bitLen x.val`.
The callers below only ever read positions `< nrows` after truncating
with `take nrows` and zero-padding, so trailing zeros of the concrete
`BigInt` width are immaterial. -/
def to_bits_le (p : ℕ) (x : ZMod p) : List Bool :=
  (List.range (bitLen (ZMod.val x))).map (Nat.testBit (ZMod.val x))

/-- Models one column write of
`SequentialStrategy::create_message_matrix` (src/aos/mod.rs lines 50-65):
the first loop writes `bits.iter().enumerate().take(nrows)` and the
second fills positions `bits.len()..nrows` with zero. -/
def messageColumn (p : ℕ) (x : ZMod p) (nrows : ℕ) : List Bool :=
  (to_bits_le p x).take nrows ++
    List.replicate (nrows - (to_bits_le p x).length) false

/-- Models `SequentialStrategy::create_message_matrix`
(src/aos/mod.rs lines 33-69) as its list of rows: entry `(j, i)` is
position `j` of the column built from `r_vec[i]`. -/
def create_message_matrix (p : ℕ) (r_vec : List (ZMod p)) (nrows ncols : ℕ) :
    List (List Bool) :=
  (List.range nrows).map (fun j =>
    (List.range ncols).map (fun i =>
      (messageColumn p (r_vec.getD i 0) nrows).getD j false))

/-- Models one column of the parallel message-matrix build
(src/aos_parallel/mod.rs lines 114-130): `bits.resize(nrows, false)`
truncates or pads the bit vector to exactly `nrows` entries. -/
def messageColumnPar (p : ℕ) (x : ZMod p) (nrows : ℕ) : List Bool :=
  ((to_bits_le p x) ++
    List.replicate (nrows - (to_bits_le p x).length) false).take nrows

/-- Models the parallel message-matrix build (src/aos_parallel/mod.rs
lines 103-137) as its list of rows. -/
def create_message_matrix_par (p : ℕ) (r_vec : List (ZMod p)) (nrows ncols : ℕ) :
    List (List Bool) :=
  (List.range nrows).map (fun j =>
    (List.range ncols).map (fun i =>
      (messageColumnPar p (r_vec.getD i 0) nrows).getD j false))

/-- Models `SequentialStrategy::encode_rows` (src/aos/mod.rs lines
71-87): row `i` of the codeword matrix is the LDPC encoding of row `i`
of the message matrix. -/
def encode_rows (message_matrix : List (List Bool)) (c : LdpcCode) (nrows : ℕ) :
    List (List Bool) :=
  (List.range nrows).map (fun i => c.encoder (message_matrix.getD i []))

/-- Models the parallel row encoding (src/aos_parallel/mod.rs lines
142-171): each worker encodes one row and writes it to its disjoint
slot, so the resulting matrix has the same rows as the sequential one. -/
def encode_rows_par (message_matrix : List (List Bool)) (c : LdpcCode) (nrows : ℕ) :
    List (List Bool) :=
  (List.range nrows).map (fun i => c.encoder (message_matrix.getD i []))

/-- Models `Array2::column(i).to_owned()`: entry `r` of column `j` is
entry `j` of row `r`. -/
def columnOf (m : List (List Bool)) (j : ℕ) : List Bool :=
  m.map (fun row => row.getD j false)

/-- Models `create_shares_from_matrix` (src/aos_core/mod.rs lines
142-152): one `Share` per output column index. -/
def create_shares_from_matrix (encoded_matrix : List (List Bool))
    (output_length : ℕ) : List Share :=
  (List.range output_length).map (fun i =>
    { y := columnOf encoded_matrix i, i := i })

/-- Models the prefix extraction in `decode_rows`
(src/aos/mod.rs lines 120-124): the decoded codeword's first
`input_length` bits, `bit == 1` mapped to `GF2::one()`. -/
def rowFromCodeword (codeword : List ℕ) (input_length : ℕ) : List Bool :=
  (codeword.take input_length).map (fun bit => bit == 1)

/-- Loop state of `SequentialStrategy::decode_rows`
(src/aos/mod.rs lines 96-105). -/
structure RowsState where
  decoded : List (List Bool)
  successful_rows : ℕ
  failed_rows : ℕ
  total_iterations : ℕ
  max_iterations_hit : ℕ

/-- Models the row loop of `SequentialStrategy::decode_rows`
(src/aos/mod.rs lines 107-143): decode each row with the shared present
mask, accumulate iteration and success statistics, copy the decoded
prefix into the row's slot on success and leave the all-zero row on
failure.  `none` models the panics: the length `assert_eq!` inside
`decode` and the `ndarray` row `assign` of a too-short prefix. -/
def decodeRowsGo (c : LdpcCode) (encoded : List (List Bool)) (present : List Bool)
    (input_length : ℕ) : List ℕ → RowsState → Option RowsState
  | [], st => some st
  | i :: rest, st =>
    match c.decode (encoded.getD i []) present with
    | none => none
    | some res =>
      let st1 : RowsState :=
        { st with
          total_iterations := st.total_iterations + res.iterations
          max_iterations_hit := st.max_iterations_hit +
            (if c.max_iterations ≤ res.iterations then 1 else 0) }
      if res.success then
        if input_length ≤ res.codeword.length then
          decodeRowsGo c encoded present input_length rest
            { st1 with
              decoded := st1.decoded.set i (rowFromCodeword res.codeword input_length)
              successful_rows := st1.successful_rows + 1 }
        else none
      else
        decodeRowsGo c encoded present input_length rest
          { st1 with failed_rows := st1.failed_rows + 1 }

/-- Models `SequentialStrategy::decode_rows` (src/aos/mod.rs lines
89-154): the decoded matrix starts as the all-zero `nrows × input_length`
matrix and the final statistics are built by `DecodingStats::new`. -/
def decode_rows (c : LdpcCode) (encoded : List (List Bool)) (present : List Bool)
    (input_length nrows : ℕ) : Option (List (List Bool) × DecodingStats) :=
  (decodeRowsGo c encoded present input_length (List.range nrows)
      { decoded := List.replicate nrows (List.replicate input_length false)
        successful_rows := 0, failed_rows := 0
        total_iterations := 0, max_iterations_hit := 0 }).map
    (fun st => (st.decoded,
      DecodingStats.new nrows st.successful_rows st.failed_rows
        st.total_iterations st.max_iterations_hit))

/-- Models `BigInteger::from_bits_le` (ark-ff): the natural number with
the given little-endian bits. -/
def bitsToNat (bits : List Bool) : ℕ :=
  bits.foldr (fun b acc => 2 * acc + (if b then 1 else 0)) 0

/-- Models `F::from_bigint` (ark-ff): `none` exactly when the value is
not a canonical representative, i.e. is `≥ p`. -/
def from_bigint (p : ℕ) (n : ℕ) : Option (ZMod p) :=
  if n < p then some (n : ZMod p) else none

/-- Sequential (Option-valued) map; `none` as soon as any element fails,
modelling a loop that panics at the first bad element. -/
def mapOption {α β : Type} (f : α → Option β) : List α → Option (List β)
  | [] => some []
  | a :: l =>
    match f a, mapOption f l with
    | some b, some bs => some (b :: bs)
    | _, _ => none

/-- Models `SequentialStrategy::reconstruct_field_elements`
(src/aos/mod.rs lines 156-174): column `i` of the decoded matrix is read
as little-endian bits and converted back to a field element; the
`expect` on `from_bigint` is the `none` case.  The parallel
implementation (src/aos_parallel/mod.rs lines 319-328) performs the same
per-column computation with `unwrap`, so it is modelled by the same
function. -/
def reconstruct_field_elements (p : ℕ) (decoded : List (List Bool))
    (input_length : ℕ) : Option (List (ZMod p)) :=
  mapOption (fun i =>
    from_bigint p (bitsToNat (decoded.map (fun row => row.getD i false))))
    (List.range input_length)

/-- Models the present-columns mask build in `reconstruct_with_strategy`
(src/aos_core/mod.rs lines 251-254): `true` at every surviving share's
index.  (The caller guards `share.i < ncols`, which in Rust is the
indexing panic.) -/
def buildPresent (shares : List Share) (ncols : ℕ) : List Bool :=
  shares.foldl (fun mask s => mask.set s.i true) (List.replicate ncols false)

/-- Models `Array2::column_mut(j).assign(&y)`: entry `j` of every row
`r` becomes entry `r` of `y`. -/
def setColumn (m : List (List Bool)) (j : ℕ) (y : List Bool) : List (List Bool) :=
  m.mapIdx (fun r row => row.set j (y.getD r false))

/-- Models the encoded-matrix rebuild in `reconstruct_with_strategy`
(src/aos_core/mod.rs lines 260-263): write each surviving share's column
into the all-zero `nrows × ncols` matrix. -/
def buildEncoded (shares : List Share) (nrows ncols : ℕ) : List (List Bool) :=
  shares.foldl (fun m s => setColumn m s.i s.y)
    (List.replicate nrows (List.replicate ncols false))

/-- Models `deal_with_strategy` with the `SequentialStrategy`
(src/aos_core/mod.rs lines 155-235), with the random vector `r_vec`
pinned as an argument: blind the secret with `dot_product(a, r_vec)`,
expand `r_vec` into the bit-plane message matrix, encode every row and
cut the codeword matrix into per-column shares. -/
def deal_with_strategy (p : ℕ) [Fact p.Prime] (pp : SecretParams p) (s : ZMod p)
    (r_vec : List (ZMod p)) : Shares p :=
  let z0 := s + dot_product pp.a r_vec
  let nrows := bitLen p
  let message_matrix := create_message_matrix p r_vec nrows pp.code.input_length
  let encoded_matrix := encode_rows message_matrix pp.code.code_impl nrows
  { shares := create_shares_from_matrix encoded_matrix pp.code.output_length
    z0 := z0 }

/-- Models `reconstruct_with_strategy` with the `SequentialStrategy`
(src/aos_core/mod.rs lines 238-336).  The guard models the Rust panics
on a share index outside `[0, output_length)` (mask indexing) and on a
share column whose length differs from `MODULUS_BIT_SIZE` (`ndarray`
column `assign`). -/
def reconstruct_with_strategy (p : ℕ) [Fact p.Prime] (pp : SecretParams p) (sh : Shares p) :
    Option (ZMod p × DecodingStats) :=
  let nrows := bitLen p
  let ncols := pp.code.output_length
  if (∀ s ∈ sh.shares, s.i < ncols ∧ s.y.length = nrows) then
    match decode_rows pp.code.code_impl (buildEncoded sh.shares nrows ncols)
        (buildPresent sh.shares ncols) pp.code.input_length nrows with
    | none => none
    | some (decoded, stats) =>
      match reconstruct_field_elements p decoded pp.code.input_length with
      | none => none
      | some r => some (sh.z0 - dot_product pp.a r, stats)
  else none

/-- Models `setup` (src/aos_core/mod.rs lines 54-90) with the already
constructed external code object and the pinned random draw stream `g`.
`none` models the panics, in the order the source reaches them: the
`assert!(input_length >= F::MODULUS_BIT_SIZE)` first, then the
`rng.gen_range(0..c)` empty-range panic, which fires on the first
coefficient draw exactly when `c = 0` and at least one coefficient is
drawn.  For `c > 0` each draw is modelled as `g i % c`, which is exactly
a value in `[0, c)`. -/
def setup (p : ℕ) (code_impl : LdpcCode) (c : ℕ) (g : ℕ → ℕ) :
    Option (SecretParams p) :=
  if bitLen p ≤ code_impl.input_length then
    if c = 0 ∧ 0 < code_impl.output_length then none
    else
      some { code := { output_length := code_impl.output_length
                       input_length := code_impl.input_length
                       code_impl := code_impl }
             a := (List.range code_impl.output_length).map
                    (fun i => ((g i % c : ℕ) : ZMod p)) }
  else none

/-- Models `aos_parallel::deal` (src/aos_parallel/mod.rs lines 62-216)
with the random vector pinned: the parallel dot product, the
`resize`-based column build and the scatter/gather share extraction. -/
def deal_par (p : ℕ) [Fact p.Prime] (pp : SecretParams p) (s : ZMod p)
    (r_vec : List (ZMod p)) : Shares p :=
  let z0 := s + dot_product_par pp.a r_vec
  let nrows := bitLen p
  let message_matrix := create_message_matrix_par p r_vec nrows pp.code.input_length
  let encoded_matrix := encode_rows_par message_matrix pp.code.code_impl nrows
  let y := (List.range pp.code.output_length).map
    (fun i => (columnOf encoded_matrix i, i))
  { shares := y.map (fun yi => { y := yi.1, i := yi.2 }), z0 := z0 }

/-- Models one parallel decode unit of `aos_parallel::reconstruct`
(src/aos_parallel/mod.rs lines 261-289): decode the row, on success
write the `input_length`-bit prefix into the disjoint row slot (flag
`true`), on failure leave the all-zero row (flag `false`). -/
def decodeRowUnitPar (c : LdpcCode) (encoded : List (List Bool))
    (present : List Bool) (input_length : ℕ) (i : ℕ) :
    Option (List Bool × Bool) :=
  match c.decode (encoded.getD i []) present with
  | none => none
  | some res =>
    if res.success then
      if input_length ≤ res.codeword.length then
        some (rowFromCodeword res.codeword input_length, true)
      else none
    else some (List.replicate input_length false, false)

/-- Models `aos_parallel::reconstruct` (src/aos_parallel/mod.rs lines
218-364): the same mask and matrix rebuild as the sequential path, the
per-row decode units gathered into the decoded matrix together with the
success/failure counters, then the same field reconstruction and the
parallel dot product. -/
def reconstruct_par (p : ℕ) [Fact p.Prime] (pp : SecretParams p) (sh : Shares p) :
    Option (ZMod p × ℕ × ℕ) :=
  let nrows := bitLen p
  let ncols := pp.code.output_length
  if (∀ s ∈ sh.shares, s.i < ncols ∧ s.y.length = nrows) then
    match mapOption (decodeRowUnitPar pp.code.code_impl
        (buildEncoded sh.shares nrows ncols) (buildPresent sh.shares ncols)
        pp.code.input_length) (List.range nrows) with
    | none => none
    | some results =>
      match reconstruct_field_elements p (results.map Prod.fst)
          pp.code.input_length with
      | none => none
      | some r =>
        some (sh.z0 - dot_product_par pp.a r,
          results.countP (fun x => x.2), results.countP (fun x => !x.2))
  else none

/-- Statement helper: the decoded matrix described row-by-row from the
per-row decode results (successful rows keep their decoded prefix,
failed rows stay all-zero). -/
def decodedOf (res : ℕ → DecodeResult) (nrows input_length : ℕ) :
    List (List Bool) :=
  (List.range nrows).map (fun i =>
    if (res i).success then rowFromCodeword (res i).codeword input_length
    else List.replicate input_length false)

instance : Fact (Nat.Prime 3) := ⟨by norm_num⟩

/-- Concrete 2-into-3 systematic toy instance of the external code used
to evaluate the theorems below on closed inputs: the decoder always
converges and reads each bit off the sign of its LLR. -/
def exCode : LdpcCode :=
  { decoder := fun llrs _ => Except.ok
      { codeword := llrs.map (fun q => if q < 0 then 1 else 0), iterations := 1 }
    encoder := fun m => (m ++ List.replicate (3 - m.length) false).take 3
    max_iterations := 10
    llr_value := 1
    input_length := 2
    output_length := 3 }

/-- Like `exCode`, but the external decoder fails to converge whenever
its first LLR is erased (zero). -/
def exCodeFail : LdpcCode :=
  { decoder := fun llrs _ =>
      if llrs.getD 0 0 = 0 then
        Except.error { codeword := List.replicate llrs.length 0, iterations := 7 }
      else Except.ok
        { codeword := llrs.map (fun q => if q < 0 then 1 else 0), iterations := 1 }
    encoder := fun m => (m ++ List.replicate (3 - m.length) false).take 3
    max_iterations := 5
    llr_value := 1
    input_length := 2
    output_length := 3 }

/-- Concrete scheme parameters over `ZMod 3` built on `exCode`. -/
def exPP : SecretParams 3 :=
  { code := { output_length := 3, input_length := 2, code_impl := exCode }
    a := [0, 1, 2] }

/-- Concrete scheme parameters over `ZMod 3` built on `exCodeFail`. -/
def exPPFail : SecretParams 3 :=
  { code := { output_length := 3, input_length := 2, code_impl := exCodeFail }
    a := [0, 1, 2] }

/-! Basic list and bit-length lemmas used throughout the development. -/

lemma getD_eq_some_getElem {α : Type} (l : List α) (i : ℕ) (d : α) (h : i < l.length) :
    l.getD i d = l[i] :=
  List.getD_eq_getElem l d h

lemma getD_map_range {α : Type} (f : ℕ → α) (n k : ℕ) (d : α) (hk : k < n) :
    ((List.range n).map f).getD k d = f k := by
  rw [List.getD_eq_getElem _ _ (by simpa using hk)]
  simp

lemma getD_replicate' {α : Type} (x d : α) (n k : ℕ) (hk : k < n) :
    (List.replicate n x).getD k d = x := by
  simp [List.getD_eq_getElem?_getD, List.getElem?_replicate, hk]

lemma getD_set_self {α : Type} (m : List α) (k : ℕ) (a d : α) (hk : k < m.length) :
    (m.set k a).getD k d = a := by
  rw [List.getD_eq_getElem _ _ (by simpa using hk)]
  simp [List.getElem_set, hk]

lemma getD_set_ne {α : Type} (m : List α) (i k : ℕ) (a d : α) (h : k ≠ i) :
    (m.set i a).getD k d = m.getD k d := by
  simp [List.getD_eq_getElem?_getD, List.getElem?_set_ne (Ne.symm h)]

lemma map_getD_range {α : Type} (l : List α) (d : α) :
    (List.range l.length).map (fun i => l.getD i d) = l := by
  apply List.ext_getElem
  · simp
  · intro i h1 h2
    simp only [List.getElem_map, List.getElem_range]
    exact List.getD_eq_getElem l d h2

lemma lt_two_pow_bitLenAux : ∀ (fuel n : ℕ), n ≤ fuel → n < 2 ^ bitLenAux fuel n := by
  intro fuel
  induction fuel with
  | zero =>
    intro n hn
    interval_cases n
    simp [bitLenAux]
  | succ fuel ih =>
    intro n hn
    by_cases h0 : n = 0
    · simp [bitLenAux, h0]
    · have hdiv : n / 2 ≤ fuel := by
        have : n / 2 < n := Nat.div_lt_self (Nat.pos_of_ne_zero h0) (by norm_num)
        omega
      have hih := ih (n / 2) hdiv
      have hmod := Nat.div_add_mod n 2
      have hm2 : n % 2 < 2 := Nat.mod_lt _ (by norm_num)
      simp only [bitLenAux, h0, if_false, pow_succ]
      omega

lemma lt_two_pow_bitLen (n : ℕ) : n < 2 ^ bitLen n :=
  lt_two_pow_bitLenAux n n le_rfl

lemma testBit_eq_false_of_bitLen_le {n i : ℕ} (h : bitLen n ≤ i) :
    Nat.testBit n i = false := by
  apply Nat.testBit_lt_two_pow
  calc n < 2 ^ bitLen n := lt_two_pow_bitLen n
  _ ≤ 2 ^ i := Nat.pow_le_pow_right (by norm_num) h

lemma zip_take {α β : Type} : ∀ (a : List α) (b : List β) (n : ℕ),
    (a.zip b).take n = (a.take n).zip (b.take n) := by
  intro a
  induction a with
  | nil => simp
  | cons x xs ih =>
    intro b n
    cases b with
    | nil => simp
    | cons y ys =>
      cases n with
      | zero => simp
      | succ m => simp [ih]

lemma zip_drop {α β : Type} : ∀ (a : List α) (b : List β) (n : ℕ),
    (a.zip b).drop n = (a.drop n).zip (b.drop n) := by
  intro a
  induction a with
  | nil => simp
  | cons x xs ih =>
    intro b n
    cases b with
    | nil => simp
    | cons y ys =>
      cases n with
      | zero => simp
      | succ m => simp [ih]

/-! Lemmas for the chunked parallel dot product (C4). -/

lemma foldl_add_eq {F : Type} [Field F] {α : Type} (g : α → F) :
    ∀ (l : List α) (c : F), l.foldl (fun acc x => acc + g x) c = c + (l.map g).sum := by
  intro l
  induction l with
  | nil => simp
  | cons x xs ih =>
    intro c
    simp [ih, add_assoc]

lemma chunked_flatten {α : Type} (n : ℕ) (hn : 0 < n) (l : List α) :
    (chunked n l).flatten = l := by
  have H : ∀ (k : ℕ) (l : List α), l.length ≤ k → (chunked n l).flatten = l := by
    intro k
    induction k with
    | zero =>
      intro l hl
      have : l = [] := by
        cases l with
        | nil => rfl
        | cons x xs => simp at hl
      subst this
      rw [chunked]
      simp
    | succ k ih =>
      intro l hl
      rw [chunked]
      by_cases h : n = 0 ∨ l.isEmpty
      · rcases h with h | h
        · omega
        · rw [dif_pos (Or.inr h)]
          simp [List.isEmpty_iff] at h
          simp [h]
      · rw [dif_neg h]
        simp only [not_or, List.isEmpty_iff] at h
        have hlen : 0 < l.length := List.length_pos.mpr h.2
        rw [List.flatten_cons, ih (l.drop n) (by simp [List.length_drop]; omega)]
        exact List.take_append_drop n l
  exact H l.length l le_rfl

lemma chunked_nil {α : Type} (n : ℕ) : chunked n ([] : List α) = [] := by
  rw [chunked]
  simp

lemma chunked_cons_eq {α : Type} (n : ℕ) (hn : 0 < n) (l : List α) (hl : l ≠ []) :
    chunked n l = l.take n :: chunked n (l.drop n) := by
  rw [chunked]
  rw [dif_neg (by simp [hl]; omega)]

lemma chunked_zip {α β : Type} (n : ℕ) (hn : 0 < n) :
    ∀ (a : List α) (b : List β),
    chunked n (a.zip b) =
      ((chunked n a).zip (chunked n b)).map (fun pc => pc.1.zip pc.2) := by
  have H : ∀ (k : ℕ) (a : List α) (b : List β), a.length ≤ k →
      chunked n (a.zip b) =
        ((chunked n a).zip (chunked n b)).map (fun pc => pc.1.zip pc.2) := by
    intro k
    induction k with
    | zero =>
      intro a b ha
      have : a = [] := by
        cases a with
        | nil => rfl
        | cons x xs => simp at ha
      subst this
      simp [chunked_nil]
    | succ k ih =>
      intro a b ha
      cases a with
      | nil => simp [chunked_nil]
      | cons x xs =>
        cases b with
        | nil => simp [chunked_nil]
        | cons y ys =>
          rw [chunked_cons_eq n hn ((x :: xs).zip (y :: ys)) (by simp),
            chunked_cons_eq n hn (x :: xs) (by simp),
            chunked_cons_eq n hn (y :: ys) (by simp)]
          simp only [List.zip_cons_cons, List.map_cons]
          rw [← ih ((x :: xs).drop n) ((y :: ys).drop n) (by simp at ha ⊢; omega)]
          rw [← zip_take, ← zip_drop]
          simp [List.zip_cons_cons]
  intro a b
  exact H a.length a b le_rfl

lemma dot_product_eq_sum {F : Type} [Field F] (a b : List F) :
    dot_product a b = ((a.zip b).map (fun xy => xy.1 * xy.2)).sum := by
  unfold dot_product
  rw [foldl_add_eq (fun xy : F × F => xy.1 * xy.2) (a.zip b) 0, zero_add]

lemma dot_product_par_eq_dot_product {F : Type} [Field F] (a b : List F) :
    dot_product_par a b = dot_product a b := by
  unfold dot_product_par
  split
  · rfl
  · rw [dot_product_eq_sum]
    rw [foldl_add_eq (fun x : F => x) _ 0, zero_add]
    have h1 : (((chunked 1024 a).zip (chunked 1024 b)).map (fun pc =>
        (pc.1.zip pc.2).foldl (fun acc xy => acc + xy.1 * xy.2) (0 : F))) =
        (((chunked 1024 a).zip (chunked 1024 b)).map (fun pc => pc.1.zip pc.2)).map
          (fun c => (c.map (fun xy => xy.1 * xy.2)).sum) := by
      rw [List.map_map]
      apply List.map_congr_left
      intro pc _
      simp only [Function.comp]
      rw [foldl_add_eq (fun xy : F × F => xy.1 * xy.2) _ 0, zero_add]
    rw [h1, ← chunked_zip 1024 (by norm_num) a b]
    simp only [List.map_id_fun', id]
    have h2 : ∀ (L : List (List (F × F))),
        (L.map (fun c => (c.map (fun xy => xy.1 * xy.2)).sum)).sum =
          ((L.flatten).map (fun xy => xy.1 * xy.2)).sum := by
      intro L
      rw [List.map_flatten, List.sum_flatten, List.map_map]
      rfl
    rw [h2, chunked_flatten 1024 (by norm_num)]

/-! Message-matrix lemmas (C7 and the deal pipeline). -/

lemma to_bits_le_length (p : ℕ) (x : ZMod p) :
    (to_bits_le p x).length = bitLen (ZMod.val x) := by
  simp [to_bits_le]

lemma messageColumn_length (p : ℕ) (x : ZMod p) (nrows : ℕ) :
    (messageColumn p x nrows).length = nrows := by
  simp [messageColumn, to_bits_le_length]
  omega

lemma messageColumn_getD (p : ℕ) (x : ZMod p) (nrows i : ℕ) (hi : i < nrows) :
    (messageColumn p x nrows).getD i false = Nat.testBit (ZMod.val x) i := by
  unfold messageColumn
  by_cases hlt : i < (to_bits_le p x).length
  · have htake : i < ((to_bits_le p x).take nrows).length := by
      simp [List.length_take]
      omega
    rw [List.getD_append _ _ _ _ htake]
    rw [List.getD_eq_getElem _ _ htake]
    simp [to_bits_le, List.getElem_take]
  · have hlen : (to_bits_le p x).length ≤ i := le_of_not_lt hlt
    have hbl : bitLen (ZMod.val x) ≤ i := by rwa [to_bits_le_length] at hlen
    have htake : ((to_bits_le p x).take nrows).length ≤ i := by
      simp [List.length_take]
      omega
    rw [List.getD_append_right _ _ _ _ htake]
    rw [testBit_eq_false_of_bitLen_le hbl]
    have hidx : i - ((to_bits_le p x).take nrows).length <
        nrows - (to_bits_le p x).length := by
      simp [List.length_take]
      omega
    exact getD_replicate' false false _ _ hidx

lemma messageColumnPar_eq (p : ℕ) (x : ZMod p) (nrows : ℕ) :
    messageColumnPar p x nrows = messageColumn p x nrows := by
  unfold messageColumnPar messageColumn
  by_cases h : (to_bits_le p x).length ≤ nrows
  · rw [List.take_of_length_le (by simp [List.length_take]; omega),
      List.take_of_length_le h]
  · have h0 : nrows - (to_bits_le p x).length = 0 := by omega
    rw [h0]
    simp

lemma create_message_matrix_par_eq (p : ℕ) (r_vec : List (ZMod p)) (nrows ncols : ℕ) :
    create_message_matrix_par p r_vec nrows ncols =
      create_message_matrix p r_vec nrows ncols := by
  unfold create_message_matrix_par create_message_matrix
  simp [messageColumnPar_eq]

lemma create_message_matrix_length (p : ℕ) (r_vec : List (ZMod p)) (nrows ncols : ℕ) :
    (create_message_matrix p r_vec nrows ncols).length = nrows := by
  simp [create_message_matrix]

lemma create_message_matrix_row_length (p : ℕ) (r_vec : List (ZMod p))
    (nrows ncols i : ℕ) (hi : i < nrows) :
    ((create_message_matrix p r_vec nrows ncols).getD i []).length = ncols := by
  unfold create_message_matrix
  rw [getD_map_range _ _ _ _ hi]
  simp

lemma create_message_matrix_entry (p : ℕ) (r_vec : List (ZMod p))
    (nrows ncols i j : ℕ) (hi : i < nrows) (hj : j < ncols) :
    ((create_message_matrix p r_vec nrows ncols).getD i []).getD j false =
      Nat.testBit (ZMod.val (r_vec.getD j 0)) i := by
  unfold create_message_matrix
  rw [getD_map_range _ _ _ _ hi, getD_map_range _ _ _ _ hj]
  exact messageColumn_getD p _ nrows i hi

/-! Generic lemmas about folds of conditional index writes, used for the
decoded-matrix loop, the present mask and the matrix rebuilds. -/

lemma foldl_condSet_length {α : Type} (cnd : ℕ → Bool) (g : ℕ → α) :
    ∀ (idxs : List ℕ) (init : List α),
    (idxs.foldl (fun m i => if cnd i then m.set i (g i) else m) init).length =
      init.length := by
  intro idxs
  induction idxs with
  | nil => simp
  | cons i rest ih =>
    intro init
    rw [List.foldl_cons, ih]
    split <;> simp

lemma foldl_condSet_getD_not_mem {α : Type} (cnd : ℕ → Bool) (g : ℕ → α)
    (k : ℕ) (d : α) :
    ∀ (idxs : List ℕ) (init : List α), k ∉ idxs →
    (idxs.foldl (fun m i => if cnd i then m.set i (g i) else m) init).getD k d =
      init.getD k d := by
  intro idxs
  induction idxs with
  | nil => simp
  | cons i rest ih =>
    intro init hk
    simp only [List.mem_cons, not_or] at hk
    rw [List.foldl_cons, ih _ hk.2]
    split
    · exact getD_set_ne init i k _ d hk.1
    · rfl

lemma foldl_condSet_getD_mem {α : Type} (cnd : ℕ → Bool) (g : ℕ → α)
    (k : ℕ) (d : α) :
    ∀ (idxs : List ℕ) (init : List α), idxs.Nodup → k ∈ idxs →
      k < init.length →
    (idxs.foldl (fun m i => if cnd i then m.set i (g i) else m) init).getD k d =
      if cnd k then g k else init.getD k d := by
  intro idxs
  induction idxs with
  | nil => simp
  | cons i rest ih =>
    intro init hnd hk hklen
    have hnd' := List.nodup_cons.mp hnd
    rw [List.foldl_cons]
    rcases List.mem_cons.mp hk with hki | hkr
    · subst hki
      rw [foldl_condSet_getD_not_mem cnd g k d rest _ hnd'.1]
      split
      · exact getD_set_self init k _ d hklen
      · rfl
    · have hkni : k ≠ i := fun h => hnd'.1 (h ▸ hkr)
      rw [ih _ hnd'.2 hkr (by split <;> simp [hklen])]
      congr 1
      split
      · exact getD_set_ne init i k _ d hkni
      · rfl

/-! Characterisation of the sequential decode loop. -/

lemma decodeRowsGo_spec (c : LdpcCode) (E : List (List Bool)) (pres : List Bool)
    (il : ℕ) (res : ℕ → DecodeResult) :
    ∀ (idxs : List ℕ) (st : RowsState),
    (∀ i ∈ idxs, c.decode (E.getD i []) pres = some (res i)) →
    (∀ i ∈ idxs, (res i).success = true → il ≤ (res i).codeword.length) →
    decodeRowsGo c E pres il idxs st = some
      { decoded := idxs.foldl (fun m i => if (res i).success then
            m.set i (rowFromCodeword (res i).codeword il) else m) st.decoded
        successful_rows := st.successful_rows + idxs.countP (fun i => (res i).success)
        failed_rows := st.failed_rows + idxs.countP (fun i => !(res i).success)
        total_iterations := st.total_iterations +
          (idxs.map (fun i => (res i).iterations)).sum
        max_iterations_hit := st.max_iterations_hit +
          idxs.countP (fun i => decide (c.max_iterations ≤ (res i).iterations)) } := by
  intro idxs
  induction idxs with
  | nil =>
    intro st _ _
    simp [decodeRowsGo]
  | cons i rest ih =>
    intro st hdec hlen
    have hdi : c.decode (E.getD i []) pres = some (res i) := hdec i (by simp)
    simp only [decodeRowsGo, hdi]
    cases hsucc : (res i).success with
    | true =>
      have hle : il ≤ (res i).codeword.length := hlen i (by simp) hsucc
      rw [if_pos rfl, if_pos hle]
      rw [ih _ (fun j hj => hdec j (by simp [hj])) (fun j hj => hlen j (by simp [hj]))]
      simp only [Option.some.injEq, RowsState.mk.injEq, List.foldl_cons,
        List.countP_cons, List.map_cons, List.sum_cons, hsucc, Bool.not_true,
        decide_eq_true_eq, if_true, if_false, Bool.false_eq_true, ite_true, ite_false]
      refine ⟨by simp, by omega, by omega, by omega, by omega⟩
    | false =>
      rw [if_neg (by simp [hsucc])]
      rw [ih _ (fun j hj => hdec j (by simp [hj])) (fun j hj => hlen j (by simp [hj]))]
      simp only [Option.some.injEq, RowsState.mk.injEq, List.foldl_cons,
        List.countP_cons, List.map_cons, List.sum_cons, hsucc, Bool.not_false,
        decide_eq_true_eq, if_true, if_false, Bool.false_eq_true, ite_true, ite_false]
      refine ⟨by simp, by omega, by omega, by omega, by omega⟩

/-- The decoded matrix produced by a run of `decode_rows` in which every
row decodes without panicking, described row-by-row. -/
lemma decode_rows_eq_some (c : LdpcCode) (E : List (List Bool)) (pres : List Bool)
    (il nrows : ℕ) (res : ℕ → DecodeResult)
    (hdec : ∀ i < nrows, c.decode (E.getD i []) pres = some (res i))
    (hlen : ∀ i < nrows, (res i).success = true → il ≤ (res i).codeword.length) :
    decode_rows c E pres il nrows = some (decodedOf res nrows il,
      DecodingStats.new nrows
        ((List.range nrows).countP (fun i => (res i).success))
        ((List.range nrows).countP (fun i => !(res i).success))
        (((List.range nrows).map (fun i => (res i).iterations)).sum)
        ((List.range nrows).countP
          (fun i => decide (c.max_iterations ≤ (res i).iterations)))) := by
  unfold decode_rows
  rw [decodeRowsGo_spec c E pres il res (List.range nrows) _
    (fun i hi => hdec i (List.mem_range.mp hi))
    (fun i hi => hlen i (List.mem_range.mp hi))]
  simp only [Option.map_some', Option.some.injEq, Prod.mk.injEq]
  constructor
  · -- the folded matrix is `decodedOf res nrows il`
    apply List.ext_getElem
    · rw [foldl_condSet_length]
      simp [decodedOf]
    · intro k h1 h2
      have hk : k < nrows := by
        rw [foldl_condSet_length] at h1
        simpa using h1
      have hfold := foldl_condSet_getD_mem (fun i => (res i).success)
        (fun i => rowFromCodeword (res i).codeword il) k [] (List.range nrows)
        (List.replicate nrows (List.replicate il false))
        (List.nodup_range nrows) (List.mem_range.mpr hk) (by simpa using hk)
      rw [← List.getD_eq_getElem _ [] h1, hfold,
        ← List.getD_eq_getElem _ [] h2]
      unfold decodedOf
      rw [getD_map_range _ _ _ _ hk]
      split
      · rfl
      · exact getD_replicate' _ _ _ _ hk
  · simp [zero_add]

/-! Correspondence between the sequential decode loop and the parallel
per-row decode units, including the panic (`none`) cases. -/

lemma decodeRowsGo_eq_none_iff (c : LdpcCode) (E : List (List Bool))
    (pres : List Bool) (il : ℕ) :
    ∀ (idxs : List ℕ) (st : RowsState),
    (decodeRowsGo c E pres il idxs st = none ↔
      ∃ i ∈ idxs, decodeRowUnitPar c E pres il i = none) := by
  intro idxs
  induction idxs with
  | nil =>
    intro st
    simp [decodeRowsGo]
  | cons i rest ih =>
    intro st
    cases hdec : c.decode (E.getD i []) pres with
    | none =>
      simp only [decodeRowsGo, hdec]
      constructor
      · intro _
        exact ⟨i, by simp, by unfold decodeRowUnitPar; rw [hdec]⟩
      · intro _
        trivial
    | some res =>
      cases hsucc : res.success with
      | true =>
        by_cases hle : il ≤ res.codeword.length
        · simp only [decodeRowsGo, hdec, hsucc, if_true, if_pos hle, ih]
          constructor
          · rintro ⟨j, hj, hju⟩
            exact ⟨j, by simp [hj], hju⟩
          · rintro ⟨j, hj, hju⟩
            rcases List.mem_cons.mp hj with hji | hjr
            · subst hji
              unfold decodeRowUnitPar at hju
              rw [hdec] at hju
              simp [hsucc, hle] at hju
            · exact ⟨j, hjr, hju⟩
        · simp only [decodeRowsGo, hdec, hsucc, if_true, if_neg hle]
          constructor
          · intro _
            refine ⟨i, by simp, ?_⟩
            unfold decodeRowUnitPar
            rw [hdec]
            simp [hsucc, hle]
          · intro _
            trivial
      | false =>
        simp only [decodeRowsGo, hdec, hsucc, Bool.false_eq_true, if_false, ih]
        constructor
        · rintro ⟨j, hj, hju⟩
          exact ⟨j, by simp [hj], hju⟩
        · rintro ⟨j, hj, hju⟩
          rcases List.mem_cons.mp hj with hji | hjr
          · subst hji
            unfold decodeRowUnitPar at hju
            rw [hdec] at hju
            simp [hsucc] at hju
          · exact ⟨j, hjr, hju⟩

lemma mapOption_isSome_iff {α β : Type} (f : α → Option β) :
    ∀ (l : List α), ((mapOption f l).isSome ↔ ∀ x ∈ l, (f x).isSome) := by
  intro l
  induction l with
  | nil => simp [mapOption]
  | cons a l ih =>
    rw [show mapOption f (a :: l) = match f a, mapOption f l with
      | some b, some bs => some (b :: bs)
      | _, _ => none from rfl]
    cases hfa : f a with
    | none => simp [hfa]
    | some b =>
      cases hml : mapOption f l with
      | none =>
        rw [hml] at ih
        simp only [List.forall_mem_cons, hfa]
        simp [← ih]
      | some bs =>
        rw [hml] at ih
        simp only [List.forall_mem_cons, hfa]
        simp [← ih]

lemma mapOption_eq_none_iff {α β : Type} (f : α → Option β) (l : List α) :
    mapOption f l = none ↔ ∃ x ∈ l, f x = none := by
  constructor
  · intro h
    by_contra hc
    push_neg at hc
    have hall : ∀ x ∈ l, (f x).isSome := by
      intro x hx
      cases hfx : f x with
      | none => exact absurd hfx (hc x hx)
      | some b => simp
    have := (mapOption_isSome_iff f l).mpr hall
    rw [h] at this
    simp at this
  · rintro ⟨x, hx, hfx⟩
    cases hml : mapOption f l with
    | none => rfl
    | some bs =>
      have := (mapOption_isSome_iff f l).mp (by rw [hml]; rfl) x hx
      rw [hfx] at this
      simp at this

lemma mapOption_eq_some {α β : Type} (f : α → Option β) (d : β) :
    ∀ (l : List α), (∀ x ∈ l, (f x).isSome) →
    mapOption f l = some (l.map (fun x => (f x).getD d)) := by
  intro l
  induction l with
  | nil => simp [mapOption]
  | cons a l ih =>
    intro h
    have ha : (f a).isSome := h a (by simp)
    simp only [mapOption]
    cases hfa : f a with
    | none => rw [hfa] at ha; simp at ha
    | some b =>
      rw [ih (fun x hx => h x (by simp [hx]))]
      simp [hfa]

/-! Bit/field round-trip lemmas. -/

lemma bitsToNat_nil : bitsToNat [] = 0 := rfl

lemma bitsToNat_cons (b : Bool) (l : List Bool) :
    bitsToNat (b :: l) = 2 * bitsToNat l + (if b then 1 else 0) := rfl

lemma bitsToNat_append (l1 l2 : List Bool) :
    bitsToNat (l1 ++ l2) = bitsToNat l1 + 2 ^ l1.length * bitsToNat l2 := by
  induction l1 with
  | nil => simp [bitsToNat_nil]
  | cons b l ih =>
    simp only [List.cons_append, bitsToNat_cons, ih, List.length_cons]
    ring

lemma bitsToNat_range_testBit (v : ℕ) :
    ∀ (M : ℕ), bitsToNat ((List.range M).map (Nat.testBit v)) = v % 2 ^ M := by
  intro M
  induction M with
  | zero => simp [bitsToNat_nil, Nat.mod_one]
  | succ M ih =>
    rw [List.range_succ, List.map_append, bitsToNat_append, ih]
    simp only [List.map_cons, List.map_nil, List.length_map, List.length_range]
    rw [Nat.mod_pow_succ]
    have h2 : v / 2 ^ M % 2 = 0 ∨ v / 2 ^ M % 2 = 1 := Nat.mod_two_eq_zero_or_one _
    rcases h2 with h2 | h2 <;>
      simp [Nat.testBit_to_div_mod, h2, bitsToNat_cons, bitsToNat_nil]

lemma bitsToNat_range_testBit_of_lt (v M : ℕ) (hv : v < 2 ^ M) :
    bitsToNat ((List.range M).map (Nat.testBit v)) = v := by
  rw [bitsToNat_range_testBit, Nat.mod_eq_of_lt hv]

/-! Rebuilding the mask and the encoded matrix from a full set of shares
(the no-erasure reconstruction path, C1). -/

lemma buildPresent_full (E : List (List Bool)) (n : ℕ) :
    buildPresent (create_shares_from_matrix E n) n = List.replicate n true := by
  unfold buildPresent create_shares_from_matrix
  rw [List.foldl_map]
  have hfun : (fun (mask : List Bool) (i : ℕ) => mask.set i true) =
      (fun mask i => if (fun _ : ℕ => true) i then
        mask.set i ((fun _ : ℕ => true) i) else mask) := by
    funext mask i
    simp
  rw [hfun]
  apply List.ext_getElem
  · rw [foldl_condSet_length]
    simp
  · intro k h1 h2
    have hk : k < n := by
      rw [foldl_condSet_length] at h1
      simpa using h1
    rw [← List.getD_eq_getElem _ false h1, ← List.getD_eq_getElem _ false h2]
    rw [foldl_condSet_getD_mem _ _ k false (List.range n) _
      (List.nodup_range n) (List.mem_range.mpr hk) (by simpa using hk)]
    rw [getD_replicate' true false n k hk]
    rfl

lemma setColumn_length (m : List (List Bool)) (j : ℕ) (y : List Bool) :
    (setColumn m j y).length = m.length := by
  simp [setColumn]

lemma setColumn_getD (m : List (List Bool)) (j : ℕ) (y : List Bool) (r : ℕ) :
    (setColumn m j y).getD r [] = (m.getD r []).set j (y.getD r false) := by
  by_cases hr : r < m.length
  · rw [List.getD_eq_getElem _ [] (by simpa [setColumn_length] using hr),
      List.getD_eq_getElem _ [] hr]
    simp [setColumn, List.getElem_mapIdx]
  · have hr' : m.length ≤ r := le_of_not_lt hr
    rw [List.getD_eq_default _ [] (by simpa [setColumn_length] using hr'),
      List.getD_eq_default _ [] hr']
    simp

lemma foldl_setColumn_length (shares : List Share) :
    ∀ (init : List (List Bool)),
    (shares.foldl (fun m s => setColumn m s.i s.y) init).length = init.length := by
  induction shares with
  | nil => simp
  | cons s rest ih =>
    intro init
    rw [List.foldl_cons, ih, setColumn_length]

lemma foldl_setColumn_row (shares : List Share) :
    ∀ (init : List (List Bool)) (r : ℕ),
    (shares.foldl (fun m s => setColumn m s.i s.y) init).getD r [] =
      shares.foldl (fun row s => row.set s.i (s.y.getD r false)) (init.getD r []) := by
  induction shares with
  | nil => simp
  | cons s rest ih =>
    intro init r
    rw [List.foldl_cons, List.foldl_cons, ih, setColumn_getD]

lemma columnOf_getD (E : List (List Bool)) (k r : ℕ) (hr : r < E.length) :
    (columnOf E k).getD r false = (E.getD r []).getD k false := by
  unfold columnOf
  rw [List.getD_eq_getElem _ false (by simpa using hr),
    List.getD_eq_getElem _ [] hr]
  simp

lemma foldl_set_shares_eq_condSet (E : List (List Bool)) (r : ℕ) :
    ∀ (idxs : List ℕ) (row0 : List Bool),
    ((idxs.map (fun k => Share.mk (columnOf E k) k)).foldl
      (fun row s => row.set s.i (s.y.getD r false)) row0) =
    idxs.foldl (fun row k => if (fun _ : ℕ => true) k then
      row.set k ((fun k => (columnOf E k).getD r false) k) else row) row0 := by
  intro idxs
  induction idxs with
  | nil => simp
  | cons k rest ih =>
    intro row0
    simp only [List.map_cons, List.foldl_cons, ih]
    simp

lemma buildEncoded_full (E : List (List Bool)) (nrows n : ℕ)
    (hlen : E.length = nrows) (hrow : ∀ i < nrows, (E.getD i []).length = n) :
    buildEncoded (create_shares_from_matrix E n) nrows n = E := by
  unfold buildEncoded
  apply List.ext_getElem
  · rw [foldl_setColumn_length]
    simp [hlen]
  · intro r h1 h2
    have hr : r < nrows := by
      rw [foldl_setColumn_length] at h1
      simpa using h1
    rw [← List.getD_eq_getElem _ [] h1, ← List.getD_eq_getElem _ [] h2]
    rw [foldl_setColumn_row]
    rw [getD_replicate' (List.replicate n false) [] nrows r hr]
    unfold create_shares_from_matrix
    rw [foldl_set_shares_eq_condSet]
    apply List.ext_getElem
    · rw [foldl_condSet_length, List.length_replicate, hrow r hr]
    · intro k hk1 hk2
      have hkn : k < n := by
        rw [foldl_condSet_length] at hk1
        simpa using hk1
      rw [← List.getD_eq_getElem _ false hk1, ← List.getD_eq_getElem _ false hk2]
      rw [foldl_condSet_getD_mem _ _ k false (List.range n) _
        (List.nodup_range n) (List.mem_range.mpr hkn) (by simpa using hkn)]
      rw [if_pos rfl]
      rw [columnOf_getD E k r (by omega)]

/-! Field-element recovery from the message matrix (C1). -/

lemma reconstruct_field_elements_message (p : ℕ) [Fact p.Prime]
    (r_vec : List (ZMod p)) (il : ℕ) (hlen : r_vec.length = il) :
    reconstruct_field_elements p (create_message_matrix p r_vec (bitLen p) il) il =
      some r_vec := by
  have hp1 : 1 < p := (Fact.out : p.Prime).one_lt
  haveI : NeZero p := ⟨by omega⟩
  have hcol : ∀ j, j < il →
      bitsToNat ((create_message_matrix p r_vec (bitLen p) il).map
        (fun row => row.getD j false)) = ZMod.val (r_vec.getD j 0) := by
    intro j hj
    unfold create_message_matrix
    rw [List.map_map]
    have hmap : (List.range (bitLen p)).map
        ((fun row => row.getD j false) ∘ (fun jrow =>
          (List.range il).map (fun i =>
            (messageColumn p (r_vec.getD i 0) (bitLen p)).getD jrow false))) =
        (List.range (bitLen p)).map (Nat.testBit (ZMod.val (r_vec.getD j 0))) := by
      apply List.map_congr_left
      intro i hi
      have hib : i < bitLen p := List.mem_range.mp hi
      simp only [Function.comp]
      rw [getD_map_range _ _ _ _ hj]
      exact messageColumn_getD p _ (bitLen p) i hib
    rw [hmap]
    apply bitsToNat_range_testBit_of_lt
    calc ZMod.val (r_vec.getD j 0) < p := ZMod.val_lt _
    _ < 2 ^ bitLen p := lt_two_pow_bitLen p
  unfold reconstruct_field_elements
  have hsome : ∀ j ∈ List.range il,
      ((fun i => from_bigint p (bitsToNat
        ((create_message_matrix p r_vec (bitLen p) il).map
          (fun row => row.getD i false)))) j).isSome := by
    intro j hj
    have hjlt : j < il := List.mem_range.mp hj
    show (from_bigint p (bitsToNat
      ((create_message_matrix p r_vec (bitLen p) il).map
        (fun row => row.getD j false)))).isSome = true
    rw [hcol j hjlt]
    unfold from_bigint
    rw [if_pos (ZMod.val_lt _)]
    rfl
  rw [mapOption_eq_some _ 0 _ hsome]
  congr 1
  have : ∀ j ∈ List.range il,
      ((from_bigint p (bitsToNat ((create_message_matrix p r_vec (bitLen p) il).map
        (fun row => row.getD j false)))).getD 0) = r_vec.getD j 0 := by
    intro j hj
    have hjlt : j < il := List.mem_range.mp hj
    rw [hcol j hjlt]
    unfold from_bigint
    rw [if_pos (ZMod.val_lt _)]
    rw [Option.getD_some]
    exact ZMod.natCast_rightInverse _
  rw [List.map_congr_left this]
  rw [← hlen]
  exact map_getD_range r_vec 0

/-! Properties of the share bundle (C1, C3). -/

lemma create_shares_length (E : List (List Bool)) (n : ℕ) :
    (create_shares_from_matrix E n).length = n := by
  simp [create_shares_from_matrix]

lemma create_shares_mem (E : List (List Bool)) (n : ℕ) (s : Share)
    (hs : s ∈ create_shares_from_matrix E n) :
    s.i < n ∧ s.y = columnOf E s.i := by
  unfold create_shares_from_matrix at hs
  rcases List.mem_map.mp hs with ⟨k, hk, hks⟩
  subst hks
  exact ⟨List.mem_range.mp hk, rfl⟩

lemma columnOf_length (E : List (List Bool)) (k : ℕ) :
    (columnOf E k).length = E.length := by
  simp [columnOf]

lemma encode_rows_length (m : List (List Bool)) (c : LdpcCode) (nrows : ℕ) :
    (encode_rows m c nrows).length = nrows := by
  simp [encode_rows]

lemma encode_rows_getD (m : List (List Bool)) (c : LdpcCode) (nrows i : ℕ)
    (hi : i < nrows) :
    (encode_rows m c nrows).getD i [] = c.encoder (m.getD i []) := by
  unfold encode_rows
  exact getD_map_range _ _ _ _ hi

/-- C1: for every scheme parameter set and secret, reconstructing the full
output of `deal` returns the original secret: with all shares retained the
rebuilt mask is all-present and the rebuilt matrix is the codeword matrix,
and under the hypothesis that every bit-plane row decodes back to the
encoded message row, the recovered random vector equals the dealt one, so
`z0 - dot_product(a, r)` is `s`. -/
theorem c1_no_erasure_round_trip (p : ℕ) [Fact p.Prime] (pp : SecretParams p)
    (s : ZMod p) (r_vec : List (ZMod p))
    (hr : r_vec.length = pp.code.input_length)
    (henc : ∀ i, i < bitLen p →
      (pp.code.code_impl.encoder
        ((create_message_matrix p r_vec (bitLen p) pp.code.input_length).getD i [])).length =
        pp.code.output_length)
    (hdec : ∀ i, i < bitLen p →
      (pp.code.code_impl.decode
        ((encode_rows (create_message_matrix p r_vec (bitLen p) pp.code.input_length)
          pp.code.code_impl (bitLen p)).getD i [])
        (List.replicate pp.code.output_length true)).map
        (fun res => (res.success, rowFromCodeword res.codeword pp.code.input_length)) =
        some (true,
          (create_message_matrix p r_vec (bitLen p) pp.code.input_length).getD i [])) :
    (reconstruct_with_strategy p pp (deal_with_strategy p pp s r_vec)).map Prod.fst =
      some s := by
  set M := bitLen p with hM
  set il := pp.code.input_length with hil
  set n := pp.code.output_length with hn
  set c := pp.code.code_impl with hc
  set msg := create_message_matrix p r_vec M il with hmsg
  set E := encode_rows msg c M with hE
  have hElen : E.length = M := encode_rows_length msg c M
  have hErow : ∀ i, i < M → (E.getD i []).length = n := by
    intro i hi
    rw [hE, encode_rows_getD msg c M i hi]
    exact henc i hi
  have hdeal : deal_with_strategy p pp s r_vec =
      { shares := create_shares_from_matrix E n
        z0 := s + dot_product pp.a r_vec } := rfl
  rw [hdeal]
  -- the reconstruction guard holds: all indices in range, all columns M bits
  have hguard : ∀ sh ∈ create_shares_from_matrix E n, sh.i < n ∧ sh.y.length = M := by
    intro sh hsh
    rcases create_shares_mem E n sh hsh with ⟨hlt, hy⟩
    refine ⟨hlt, ?_⟩
    rw [hy, columnOf_length, hElen]
  -- per-row decode results
  have hdec' : ∀ i, i < M → ∃ res, c.decode (E.getD i []) (List.replicate n true) =
      some res ∧ res.success = true ∧ rowFromCodeword res.codeword il = msg.getD i [] := by
    intro i hi
    have h := hdec i hi
    cases hdi : c.decode (E.getD i []) (List.replicate n true) with
    | none =>
      rw [hdi] at h
      simp at h
    | some res =>
      rw [hdi] at h
      simp only [Option.map_some', Option.some.injEq, Prod.mk.injEq] at h
      exact ⟨res, rfl, h.1, h.2⟩
  classical
  choose resf hres hsucc hrow using hdec'
  -- totalise the row-result function
  let res : ℕ → DecodeResult := fun i =>
    if hi : i < M then resf i hi else default
  have hres' : ∀ i, i < M → c.decode (E.getD i []) (List.replicate n true) =
      some (res i) := by
    intro i hi
    simp only [res, dif_pos hi]
    exact hres i hi
  have hsucc' : ∀ i, i < M → (res i).success = true := by
    intro i hi
    simp only [res, dif_pos hi]
    exact hsucc i hi
  have hrow' : ∀ i, i < M → rowFromCodeword (res i).codeword il = msg.getD i [] := by
    intro i hi
    simp only [res, dif_pos hi]
    exact hrow i hi
  have hmsgrow : ∀ i, i < M → (msg.getD i []).length = il :=
    fun i hi => create_message_matrix_row_length p r_vec M il i hi
  have hlen' : ∀ i, i < M → (res i).success = true → il ≤ (res i).codeword.length := by
    intro i hi _
    have h1 := hrow' i hi
    have h2 := hmsgrow i hi
    have : (rowFromCodeword (res i).codeword il).length = il := by rw [h1, h2]
    unfold rowFromCodeword at this
    simp only [List.length_map, List.length_take] at this
    omega
  -- run the reconstruction
  unfold reconstruct_with_strategy
  rw [if_pos hguard]
  rw [buildPresent_full, buildEncoded_full E M n hElen hErow]
  have hdecoded : decodedOf res M il = msg := by
    apply List.ext_getElem
    · simp [decodedOf, hmsg, create_message_matrix_length]
    · intro i h1 h2
      have hi : i < M := by simpa [decodedOf] using h1
      rw [← List.getD_eq_getElem _ [] h1, ← List.getD_eq_getElem _ [] h2]
      unfold decodedOf
      rw [getD_map_range _ _ _ _ hi, if_pos (hsucc' i hi)]
      exact hrow' i hi
  have hrfe : reconstruct_field_elements p msg il = some r_vec := by
    rw [hmsg]
    exact reconstruct_field_elements_message p r_vec il hr
  rw [← hil]
  simp only [decode_rows_eq_some c E (List.replicate n true) il M res hres' hlen',
    hdecoded, hrfe, Option.map_some']
  rw [add_sub_cancel_right]

/-- Closed-input witness for `c1_no_erasure_round_trip`: over `ZMod 3`
with the toy code, dealing the secret `2` with pinned randomness `[1, 2]`
and reconstructing from all three shares returns `2`. -/
theorem c1_no_erasure_round_trip_witness :
    (([1, 2] : List (ZMod 3)).length = exPP.code.input_length) ∧
    (∀ i, i < bitLen 3 →
      (exPP.code.code_impl.encoder
        ((create_message_matrix 3 [1, 2] (bitLen 3) exPP.code.input_length).getD i [])).length =
        exPP.code.output_length) ∧
    (∀ i, i < bitLen 3 →
      (exPP.code.code_impl.decode
        ((encode_rows (create_message_matrix 3 [1, 2] (bitLen 3) exPP.code.input_length)
          exPP.code.code_impl (bitLen 3)).getD i [])
        (List.replicate exPP.code.output_length true)).map
        (fun res => (res.success, rowFromCodeword res.codeword exPP.code.input_length)) =
        some (true,
          (create_message_matrix 3 [1, 2] (bitLen 3) exPP.code.input_length).getD i [])) ∧
    (reconstruct_with_strategy 3 exPP (deal_with_strategy 3 exPP 2 [1, 2])).map Prod.fst =
      some 2 :=
  ⟨by decide, by decide, by decide,
    c1_no_erasure_round_trip 3 exPP 2 [1, 2] (by decide) (by decide) (by decide)⟩

/-- C3: the bundle returned by `deal` contains exactly `output_length`
shares, the share indices are exactly `0, 1, …, output_length - 1` (hence
pairwise distinct and in range), and share `k` holds column `k` of the
codeword matrix. -/
theorem c3_share_count_invariant (p : ℕ) [Fact p.Prime] (pp : SecretParams p)
    (s : ZMod p) (r_vec : List (ZMod p)) (k : ℕ) (hk : k < pp.code.output_length) :
    (deal_with_strategy p pp s r_vec).shares.length = pp.code.output_length ∧
    (deal_with_strategy p pp s r_vec).shares.map Share.i =
      List.range pp.code.output_length ∧
    ((deal_with_strategy p pp s r_vec).shares.map Share.i).Nodup ∧
    ((deal_with_strategy p pp s r_vec).shares.getD k default).i = k ∧
    ((deal_with_strategy p pp s r_vec).shares.getD k default).y =
      columnOf (encode_rows
        (create_message_matrix p r_vec (bitLen p) pp.code.input_length)
        pp.code.code_impl (bitLen p)) k := by
  have hdeal : (deal_with_strategy p pp s r_vec).shares =
      create_shares_from_matrix
        (encode_rows (create_message_matrix p r_vec (bitLen p) pp.code.input_length)
          pp.code.code_impl (bitLen p)) pp.code.output_length := rfl
  rw [hdeal]
  have hmap : (create_shares_from_matrix
      (encode_rows (create_message_matrix p r_vec (bitLen p) pp.code.input_length)
        pp.code.code_impl (bitLen p)) pp.code.output_length).map Share.i =
      List.range pp.code.output_length := by
    unfold create_shares_from_matrix
    rw [List.map_map]
    exact List.map_id _
  refine ⟨create_shares_length _ _, hmap, ?_, ?_, ?_⟩
  · rw [hmap]
    exact List.nodup_range _
  · unfold create_shares_from_matrix
    rw [getD_map_range _ _ _ _ hk]
  · unfold create_shares_from_matrix
    rw [getD_map_range _ _ _ _ hk]

/-- Closed-input witness for `c3_share_count_invariant` at `k = 1` on the
toy parameters. -/
theorem c3_share_count_invariant_witness :
    (1 < exPP.code.output_length) ∧
    ((deal_with_strategy 3 exPP 2 [1, 2]).shares.length = exPP.code.output_length ∧
    (deal_with_strategy 3 exPP 2 [1, 2]).shares.map Share.i =
      List.range exPP.code.output_length ∧
    ((deal_with_strategy 3 exPP 2 [1, 2]).shares.map Share.i).Nodup ∧
    ((deal_with_strategy 3 exPP 2 [1, 2]).shares.getD 1 default).i = 1 ∧
    ((deal_with_strategy 3 exPP 2 [1, 2]).shares.getD 1 default).y =
      columnOf (encode_rows
        (create_message_matrix 3 [1, 2] (bitLen 3) exPP.code.input_length)
        exPP.code.code_impl (bitLen 3)) 1) :=
  ⟨by decide, c3_share_count_invariant 3 exPP 2 [1, 2] 1 (by decide)⟩

/-- C4: for equal-length vectors of field elements, the parallel chunked
dot product equals the sequential left-to-right fold exactly. -/
theorem c4_dot_product_parallel_eq_sequential {F : Type} [Field F]
    (a b : List F) (h : a.length = b.length) :
    dot_product_par a b = dot_product a b :=
  dot_product_par_eq_dot_product a b

/-- Closed-input witness for `c4_dot_product_parallel_eq_sequential` over
`ZMod 3`. -/
theorem c4_dot_product_parallel_eq_sequential_witness :
    (([1, 2, 2] : List (ZMod 3)).length = ([2, 1, 1] : List (ZMod 3)).length) ∧
    dot_product_par ([1, 2, 2] : List (ZMod 3)) [2, 1, 1] =
      dot_product ([1, 2, 2] : List (ZMod 3)) [2, 1, 1] :=
  ⟨by decide, c4_dot_product_parallel_eq_sequential [1, 2, 2] [2, 1, 1] (by decide)⟩

/-- C5: when a bit-plane row fails to decode, reconstruction is not
aborted: `decode_rows` still returns, the failing row of the decoded
matrix is all-zero, the failure is counted in the `DecodingStats`, the
remaining rows are still processed (the whole decoded matrix and all four
counters are fully determined by the per-row results), and
`reconstruct_with_strategy` returns normally. -/
theorem c5_row_decode_failure_is_local (p : ℕ) [Fact p.Prime]
    (pp : SecretParams p) (sh : Shares p) (res : ℕ → DecodeResult) (k : ℕ)
    (hwf : ∀ s ∈ sh.shares, s.i < pp.code.output_length ∧ s.y.length = bitLen p)
    (hres : ∀ i, i < bitLen p →
      pp.code.code_impl.decode
        ((buildEncoded sh.shares (bitLen p) pp.code.output_length).getD i [])
        (buildPresent sh.shares pp.code.output_length) = some (res i))
    (hlen : ∀ i, i < bitLen p → (res i).success = true →
      pp.code.input_length ≤ (res i).codeword.length)
    (hk : k < bitLen p) (hfail : (res k).success = false)
    (hcols : ∀ j, j < pp.code.input_length →
      bitsToNat ((decodedOf res (bitLen p) pp.code.input_length).map
        (fun row => row.getD j false)) < p) :
    decode_rows pp.code.code_impl
        (buildEncoded sh.shares (bitLen p) pp.code.output_length)
        (buildPresent sh.shares pp.code.output_length)
        pp.code.input_length (bitLen p) =
      some (decodedOf res (bitLen p) pp.code.input_length,
        DecodingStats.new (bitLen p)
          ((List.range (bitLen p)).countP (fun i => (res i).success))
          ((List.range (bitLen p)).countP (fun i => !(res i).success))
          (((List.range (bitLen p)).map (fun i => (res i).iterations)).sum)
          ((List.range (bitLen p)).countP
            (fun i => decide (pp.code.code_impl.max_iterations ≤ (res i).iterations)))) ∧
    (decodedOf res (bitLen p) pp.code.input_length).getD k [] =
      List.replicate pp.code.input_length false ∧
    0 < (List.range (bitLen p)).countP (fun i => !(res i).success) ∧
    (reconstruct_with_strategy p pp sh).isSome = true := by
  have hdeceq := decode_rows_eq_some pp.code.code_impl
    (buildEncoded sh.shares (bitLen p) pp.code.output_length)
    (buildPresent sh.shares pp.code.output_length)
    pp.code.input_length (bitLen p) res hres hlen
  have hrfe : reconstruct_field_elements p
      (decodedOf res (bitLen p) pp.code.input_length) pp.code.input_length =
      some ((List.range pp.code.input_length).map (fun j =>
        (from_bigint p (bitsToNat
          ((decodedOf res (bitLen p) pp.code.input_length).map
            (fun row => row.getD j false)))).getD 0)) := by
    unfold reconstruct_field_elements
    apply mapOption_eq_some
    intro j hj
    show (from_bigint p (bitsToNat
      ((decodedOf res (bitLen p) pp.code.input_length).map
        (fun row => row.getD j false)))).isSome = true
    unfold from_bigint
    rw [if_pos (hcols j (List.mem_range.mp hj))]
    rfl
  refine ⟨hdeceq, ?_, ?_, ?_⟩
  · unfold decodedOf
    rw [getD_map_range _ _ _ _ hk]
    rw [if_neg (by simp [hfail])]
  · exact List.countP_pos_iff.mpr ⟨k, List.mem_range.mpr hk, by simp [hfail]⟩
  · unfold reconstruct_with_strategy
    rw [if_pos hwf]
    simp only [hdeceq, hrfe]
    rfl

/-- Closed-input witness for `c5_row_decode_failure_is_local`: over
`ZMod 3` with the failing toy code and an empty share bundle, every row
fails, row `0` of the decoded matrix stays all-zero, and reconstruction
still returns a value. -/
theorem c5_row_decode_failure_is_local_witness :
    (∀ s ∈ (Shares.mk ([] : List Share) (2 : ZMod 3)).shares,
      s.i < exPPFail.code.output_length ∧ s.y.length = bitLen 3) ∧
    (∀ i, i < bitLen 3 →
      exPPFail.code.code_impl.decode
        ((buildEncoded ([] : List Share) (bitLen 3) exPPFail.code.output_length).getD i [])
        (buildPresent ([] : List Share) exPPFail.code.output_length) =
        some (DecodeResult.mk (List.replicate 3 0) 7 false)) ∧
    (∀ i, i < bitLen 3 →
      (DecodeResult.mk (List.replicate 3 0) 7 false).success = true →
      exPPFail.code.input_length ≤
        (DecodeResult.mk (List.replicate 3 0) 7 false).codeword.length) ∧
    (0 < bitLen 3) ∧
    ((DecodeResult.mk (List.replicate 3 0) 7 false).success = false) ∧
    (∀ j, j < exPPFail.code.input_length →
      bitsToNat ((decodedOf (fun _ => DecodeResult.mk (List.replicate 3 0) 7 false)
        (bitLen 3) exPPFail.code.input_length).map
        (fun row => row.getD j false)) < 3) ∧
    ((decodedOf (fun _ => DecodeResult.mk (List.replicate 3 0) 7 false) (bitLen 3)
        exPPFail.code.input_length).getD 0 [] =
      List.replicate exPPFail.code.input_length false ∧
    0 < (List.range (bitLen 3)).countP
      (fun i => !(DecodeResult.mk (List.replicate 3 0) 7 false).success) ∧
    (reconstruct_with_strategy 3 exPPFail
      (Shares.mk ([] : List Share) (2 : ZMod 3))).isSome = true) := by
  refine ⟨by decide, by decide, by decide, by decide, by decide, by decide, ?_⟩
  have h := c5_row_decode_failure_is_local 3 exPPFail
    (Shares.mk ([] : List Share) (2 : ZMod 3))
    (fun _ => DecodeResult.mk (List.replicate 3 0) 7 false) 0
    (by decide) (by decide) (by decide) (by decide) (by decide) (by decide)
  exact ⟨h.2.1, h.2.2.1, h.2.2.2⟩

/-- C6 counterexample: the claim as stated is false of the program: with
coefficient bound `c = 0`, `setup` fails (the `gen_range(0..0)` draw of
the first coefficient panics on an empty range) even though
`input_length` is not smaller than the modulus bit size, so `setup` does
not fail *exactly* when `input_length < M`. -/
theorem c6_setup_fails_fast_counterexample :
    bitLen 3 ≤ exCode.input_length ∧ setup 3 exCode 0 (fun i => i) = none :=
  ⟨by decide, rfl⟩

/-- C6 (amended): for every positive coefficient bound `c`, `setup`
fails (hard error) exactly when the code's `input_length` is below the
field's modulus bit size; otherwise it returns parameters whose stored
lengths are the code's lengths.  The precondition is checked only at
setup: `decode` is defined whenever its two argument lengths match,
independently of the modulus bit size.  (With `c = 0` the empty sampling
range makes `setup` panic regardless, per the counterexample.) -/
theorem c6_setup_fails_fast_iff (p : ℕ) (code : LdpcCode) (c : ℕ) (g : ℕ → ℕ)
    (input present : List Bool) (hc : 0 < c) :
    ((setup p code c g).isSome ↔ bitLen p ≤ code.input_length) ∧
    ((setup p code c g).map
        (fun pp => (pp.code.input_length, pp.code.output_length)) =
      if bitLen p ≤ code.input_length then
        some (code.input_length, code.output_length) else none) ∧
    ((code.decode input present).isSome ↔ input.length = present.length) := by
  have hcc : ¬(c = 0 ∧ 0 < code.output_length) := by
    rintro ⟨h0, _⟩
    omega
  refine ⟨?_, ?_, ?_⟩
  · unfold setup
    by_cases h : bitLen p ≤ code.input_length
    · rw [if_pos h, if_neg hcc]
      simp [h]
    · rw [if_neg h]
      simp [h]
  · unfold setup
    by_cases h : bitLen p ≤ code.input_length
    · rw [if_pos h, if_neg hcc, if_pos h]
      rfl
    · rw [if_neg h, if_neg h]
      rfl
  · unfold LdpcCode.decode
    by_cases h : input.length = present.length
    · rw [if_pos h]
      cases code.decoder (llrMessage code input present) code.max_iterations <;>
        simp [h]
    · rw [if_neg h]
      simp [h]

/-- Closed-input witness for `c6_setup_fails_fast_iff` over `ZMod 3`
with the toy code and bound `c = 2`. -/
theorem c6_setup_fails_fast_iff_witness :
    (0 < 2) ∧
    (((setup 3 exCode 2 (fun i => i)).isSome ↔ bitLen 3 ≤ exCode.input_length) ∧
    ((setup 3 exCode 2 (fun i => i)).map
        (fun pp => (pp.code.input_length, pp.code.output_length)) =
      if bitLen 3 ≤ exCode.input_length then
        some (exCode.input_length, exCode.output_length) else none) ∧
    ((exCode.decode [true] [false]).isSome ↔
      ([true] : List Bool).length = ([false] : List Bool).length)) :=
  ⟨by decide,
    c6_setup_fails_fast_iff 3 exCode 2 (fun i => i) [true] [false] (by decide)⟩

/-- C7: entry `(i, j)` of the message matrix built from `r_vec` with `M`
rows is bit `i` of `r_vec[j]`'s little-endian binary expansion, with
positions beyond the natural bit length equal to zero; the matrix has
exactly `M` rows of `ncols` entries each (zero-padded, never truncated
below the natural bit length since every canonical value fits in `M`
bits). -/
theorem c7_message_matrix_entries (p : ℕ) (r_vec : List (ZMod p))
    (ncols i j : ℕ) (hi : i < bitLen p) (hj : j < ncols) :
    (create_message_matrix p r_vec (bitLen p) ncols).length = bitLen p ∧
    ((create_message_matrix p r_vec (bitLen p) ncols).getD i []).length = ncols ∧
    ((create_message_matrix p r_vec (bitLen p) ncols).getD i []).getD j false =
      Nat.testBit (ZMod.val (r_vec.getD j 0)) i :=
  ⟨create_message_matrix_length p r_vec (bitLen p) ncols,
    create_message_matrix_row_length p r_vec (bitLen p) ncols i hi,
    create_message_matrix_entry p r_vec (bitLen p) ncols i j hi hj⟩

/-- Closed-input witness for `c7_message_matrix_entries` over `ZMod 3`
with `r_vec = [1, 2]` at entry `(1, 1)`. -/
theorem c7_message_matrix_entries_witness :
    (1 < bitLen 3) ∧ (1 < 2) ∧
    ((create_message_matrix 3 [1, 2] (bitLen 3) 2).length = bitLen 3 ∧
    ((create_message_matrix 3 [1, 2] (bitLen 3) 2).getD 1 []).length = 2 ∧
    ((create_message_matrix 3 [1, 2] (bitLen 3) 2).getD 1 []).getD 1 false =
      Nat.testBit (ZMod.val (([1, 2] : List (ZMod 3)).getD 1 0)) 1) :=
  ⟨by decide, by decide,
    c7_message_matrix_entries 3 [1, 2] 2 1 1 (by decide) (by decide)⟩

/-- C8: `decode` fails fast exactly when the received vector's length
differs from the present-mask's length; with equal lengths the assertion
branch is unreachable and a result is always produced. -/
theorem c8_decode_length_assert (c : LdpcCode) (input present : List Bool) :
    c.decode input present = none ↔ input.length ≠ present.length := by
  unfold LdpcCode.decode
  by_cases h : input.length = present.length
  · rw [if_pos h]
    cases c.decoder (llrMessage c input present) c.max_iterations <;> simp [h]
  · rw [if_neg h]
    simp [h]

/-- C9: the LLR message built by `decode` has one entry per
received/mask position pair, equal to `0` where the mask is `false` and
to `-llr_value` for a one bit and `+llr_value` for a zero bit where the
mask is `true` (opposite signs, same magnitude). -/
theorem c9_llr_mapping (c : LdpcCode) (input present : List Bool) (i : ℕ)
    (h1 : i < input.length) (h2 : i < present.length) :
    (llrMessage c input present).length = min input.length present.length ∧
    (llrMessage c input present).getD i 0 =
      (if present.getD i false then
        (if input.getD i false then -c.llr_value else c.llr_value) else 0) := by
  constructor
  · simp [llrMessage]
  · have hi : i < (llrMessage c input present).length := by
      simp [llrMessage]
      omega
    rw [List.getD_eq_getElem _ _ hi, List.getD_eq_getElem _ _ h1,
      List.getD_eq_getElem _ _ h2]
    unfold llrMessage
    rw [List.getElem_map]
    rw [List.getElem_zip]
    cases hpres : present[i] <;> cases hinp : input[i] <;> simp

/-- Closed-input witness for `c9_llr_mapping` on the toy code at
position `1` of `input = [true, false]`, `present = [false, true]`. -/
theorem c9_llr_mapping_witness :
    (1 < ([true, false] : List Bool).length) ∧
    (1 < ([false, true] : List Bool).length) ∧
    ((llrMessage exCode [true, false] [false, true]).length =
      min ([true, false] : List Bool).length ([false, true] : List Bool).length ∧
    (llrMessage exCode [true, false] [false, true]).getD 1 0 =
      (if ([false, true] : List Bool).getD 1 false then
        (if ([true, false] : List Bool).getD 1 false then
          -exCode.llr_value else exCode.llr_value) else 0)) :=
  ⟨by decide, by decide,
    c9_llr_mapping exCode [true, false] [false, true] 1 (by decide) (by decide)⟩

lemma dot_product_zero_left {F : Type} [Field F] (a b : List F)
    (h : ∀ x ∈ a, x = 0) : dot_product a b = 0 := by
  rw [dot_product_eq_sum]
  apply List.sum_eq_zero
  intro z hz
  rcases List.mem_map.mp hz with ⟨⟨x, y⟩, hmem, hxy⟩
  have hx : x ∈ a := (List.of_mem_zip hmem).1
  rw [← hxy, h x hx, zero_mul]

/-- C10: for a positive coefficient bound `c`, `setup` draws exactly
`output_length` coefficients, the `k`-th being the field embedding of
`g k % c`, an integer below `c`; with `c = 1` every coefficient is zero,
so the dealt `z0` is the unblinded secret. -/
theorem c10_setup_coefficients (p : ℕ) [Fact p.Prime] (code : LdpcCode)
    (c : ℕ) (g : ℕ → ℕ) (s : ZMod p) (r : List (ZMod p)) (k : ℕ)
    (hc : 0 < c) (hM : bitLen p ≤ code.input_length)
    (hk : k < code.output_length) :
    ((setup p code c g).map (fun pp => pp.a.length) = some code.output_length) ∧
    ((setup p code c g).map (fun pp => pp.a.getD k 0) =
      some (((g k % c : ℕ) : ZMod p))) ∧
    (g k % c < c) ∧
    ((setup p code 1 g).map (fun pp => (deal_with_strategy p pp s r).z0) =
      some s) := by
  have hcc : ¬(c = 0 ∧ 0 < code.output_length) := by
    rintro ⟨h0, _⟩
    omega
  have hcc1 : ¬((1 : ℕ) = 0 ∧ 0 < code.output_length) := by
    rintro ⟨h0, _⟩
    exact absurd h0 one_ne_zero
  refine ⟨?_, ?_, Nat.mod_lt _ hc, ?_⟩
  · unfold setup
    rw [if_pos hM, if_neg hcc]
    simp
  · unfold setup
    rw [if_pos hM, if_neg hcc]
    simp only [Option.map_some']
    rw [getD_map_range _ _ _ _ hk]
  · unfold setup
    rw [if_pos hM, if_neg hcc1]
    simp only [Option.map_some']
    have hz : (deal_with_strategy p
        { code := { output_length := code.output_length
                    input_length := code.input_length
                    code_impl := code }
          a := (List.range code.output_length).map
            (fun i => ((g i % 1 : ℕ) : ZMod p)) } s r).z0 =
        s + dot_product ((List.range code.output_length).map
          (fun i => ((g i % 1 : ℕ) : ZMod p))) r := rfl
    rw [hz, dot_product_zero_left _ r ?_, add_zero]
    intro x hx
    rcases List.mem_map.mp hx with ⟨i, _, hix⟩
    rw [← hix]
    simp [Nat.mod_one]

/-- Closed-input witness for `c10_setup_coefficients` over `ZMod 3` with
bound `c = 2`, draw stream `g i = i + 5`, index `k = 2`. -/
theorem c10_setup_coefficients_witness :
    (0 < 2) ∧ (bitLen 3 ≤ exCode.input_length) ∧ (2 < exCode.output_length) ∧
    (((setup 3 exCode 2 (fun i => i + 5)).map (fun pp => pp.a.length) =
      some exCode.output_length) ∧
    ((setup 3 exCode 2 (fun i => i + 5)).map (fun pp => pp.a.getD 2 0) =
      some ((((fun i => i + 5) 2 % 2 : ℕ) : ZMod 3))) ∧
    ((fun i => i + 5) 2 % 2 < 2) ∧
    ((setup 3 exCode 1 (fun i => i + 5)).map
      (fun pp => (deal_with_strategy 3 pp 2 [1, 2]).z0) = some 2)) :=
  ⟨by decide, by decide, by decide,
    c10_setup_coefficients 3 exCode 2 (fun i => i + 5) 2 [1, 2] 2
      (by decide) (by decide) (by decide)⟩

lemma encode_rows_par_eq (m : List (List Bool)) (c : LdpcCode) (nrows : ℕ) :
    encode_rows_par m c nrows = encode_rows m c nrows := rfl

/-- C2: with the randomness pinned, the parallel implementation is
observably equivalent to the sequential one: `deal` produces the
identical share bundle (same columns, indices and `z0`), and
`reconstruct` produces the identical reconstructed secret (including
agreement on the panic cases). -/
theorem c2_sequential_parallel_equivalence (p : ℕ) [Fact p.Prime]
    (pp : SecretParams p) (s : ZMod p) (r_vec : List (ZMod p)) (sh : Shares p) :
    deal_par p pp s r_vec = deal_with_strategy p pp s r_vec ∧
    (reconstruct_par p pp sh).map Prod.fst =
      (reconstruct_with_strategy p pp sh).map Prod.fst := by
  constructor
  · -- deal: the two pipelines build the same bundle
    simp only [deal_par, deal_with_strategy, create_message_matrix_par_eq,
      encode_rows_par_eq, dot_product_par_eq_dot_product, List.map_map]
    rfl
  · -- reconstruct: same guard, same per-row outcomes, same secret
    unfold reconstruct_par reconstruct_with_strategy
    by_cases hg : ∀ t ∈ sh.shares, t.i < pp.code.output_length ∧
        t.y.length = bitLen p
    · rw [if_pos hg, if_pos hg]
      by_cases hbad : ∃ i ∈ List.range (bitLen p),
          decodeRowUnitPar pp.code.code_impl
            (buildEncoded sh.shares (bitLen p) pp.code.output_length)
            (buildPresent sh.shares pp.code.output_length)
            pp.code.input_length i = none
      · -- a panicking row: both sides return none
        have hseq : decode_rows pp.code.code_impl
            (buildEncoded sh.shares (bitLen p) pp.code.output_length)
            (buildPresent sh.shares pp.code.output_length)
            pp.code.input_length (bitLen p) = none := by
          unfold decode_rows
          rw [(decodeRowsGo_eq_none_iff _ _ _ _ _ _).mpr hbad]
          rfl
        have hpar : mapOption (decodeRowUnitPar pp.code.code_impl
            (buildEncoded sh.shares (bitLen p) pp.code.output_length)
            (buildPresent sh.shares pp.code.output_length)
            pp.code.input_length) (List.range (bitLen p)) = none :=
          (mapOption_eq_none_iff _ _).mpr hbad
        rw [hseq, hpar]
        rfl
      · -- every row yields a result: both sides agree pointwise
        have hall : ∀ i ∈ List.range (bitLen p),
            (decodeRowUnitPar pp.code.code_impl
              (buildEncoded sh.shares (bitLen p) pp.code.output_length)
              (buildPresent sh.shares pp.code.output_length)
              pp.code.input_length i).isSome := by
          intro i hi
          cases hu : decodeRowUnitPar pp.code.code_impl
              (buildEncoded sh.shares (bitLen p) pp.code.output_length)
              (buildPresent sh.shares pp.code.output_length)
              pp.code.input_length i with
          | none => exact absurd ⟨i, hi, hu⟩ hbad
          | some v => rfl
        classical
        set res : ℕ → DecodeResult := fun i =>
          (pp.code.code_impl.decode
            ((buildEncoded sh.shares (bitLen p) pp.code.output_length).getD i [])
            (buildPresent sh.shares pp.code.output_length)).getD default with hresdef
        have hres : ∀ i, i < bitLen p →
            pp.code.code_impl.decode
              ((buildEncoded sh.shares (bitLen p) pp.code.output_length).getD i [])
              (buildPresent sh.shares pp.code.output_length) = some (res i) := by
          intro i hi
          have hu := hall i (List.mem_range.mpr hi)
          unfold decodeRowUnitPar at hu
          cases hd : pp.code.code_impl.decode
              ((buildEncoded sh.shares (bitLen p) pp.code.output_length).getD i [])
              (buildPresent sh.shares pp.code.output_length) with
          | none =>
            rw [hd] at hu
            simp at hu
          | some r =>
            simp only [hresdef]
            rw [hd]
            rfl
        have hlen : ∀ i, i < bitLen p → (res i).success = true →
            pp.code.input_length ≤ (res i).codeword.length := by
          intro i hi hsucc
          have hu := hall i (List.mem_range.mpr hi)
          unfold decodeRowUnitPar at hu
          rw [hres i hi] at hu
          by_contra hnle
          simp [hsucc, hnle] at hu
        have hpar : mapOption (decodeRowUnitPar pp.code.code_impl
            (buildEncoded sh.shares (bitLen p) pp.code.output_length)
            (buildPresent sh.shares pp.code.output_length)
            pp.code.input_length) (List.range (bitLen p)) =
            some ((List.range (bitLen p)).map (fun i =>
              (decodeRowUnitPar pp.code.code_impl
                (buildEncoded sh.shares (bitLen p) pp.code.output_length)
                (buildPresent sh.shares pp.code.output_length)
                pp.code.input_length i).getD ([], false))) :=
          mapOption_eq_some _ ([], false) _ hall
        have hfst : ((List.range (bitLen p)).map (fun i =>
            (decodeRowUnitPar pp.code.code_impl
              (buildEncoded sh.shares (bitLen p) pp.code.output_length)
              (buildPresent sh.shares pp.code.output_length)
              pp.code.input_length i).getD ([], false))).map Prod.fst =
            decodedOf res (bitLen p) pp.code.input_length := by
          rw [List.map_map]
          unfold decodedOf
          apply List.map_congr_left
          intro i hi
          have hi' := List.mem_range.mp hi
          simp only [Function.comp]
          unfold decodeRowUnitPar
          rw [hres i hi']
          cases hsucc : (res i).success with
          | true => simp [hsucc, hlen i hi' hsucc]
          | false => simp [hsucc]
        simp only [hpar,
          decode_rows_eq_some pp.code.code_impl
            (buildEncoded sh.shares (bitLen p) pp.code.output_length)
            (buildPresent sh.shares pp.code.output_length)
            pp.code.input_length (bitLen p) res hres hlen, hfst]
        cases hrfe : reconstruct_field_elements p
            (decodedOf res (bitLen p) pp.code.input_length)
            pp.code.input_length with
        | none => simp [hrfe]
        | some r =>
          simp only [hrfe, Option.map_some', dot_product_par_eq_dot_product]
    · rw [if_neg hg, if_neg hg]
      rfl

/-- Closed-input witness for `c2_sequential_parallel_equivalence` over
`ZMod 3` with the toy code, secret `2`, pinned randomness `[1, 2]` and
the full dealt bundle as the reconstruction input. -/
theorem c2_sequential_parallel_equivalence_witness :
    Nat.Prime 3 ∧
    (deal_par 3 exPP 2 [1, 2] = deal_with_strategy 3 exPP 2 [1, 2] ∧
    (reconstruct_par 3 exPP (deal_with_strategy 3 exPP 2 [1, 2])).map Prod.fst =
      (reconstruct_with_strategy 3 exPP
        (deal_with_strategy 3 exPP 2 [1, 2])).map Prod.fst) :=
  ⟨by norm_num,
    c2_sequential_parallel_equivalence 3 exPP 2 [1, 2]
      (deal_with_strategy 3 exPP 2 [1, 2])⟩
